import Mathlib

/-!
Verification of the Huffman compression engine in
`src/encoding/huffman.rs` and `src/encoding/huffman_decoder.rs`.

Byte values and weights are modelled as `Nat`; the `u8` fields of the
on-disk `Code` carry an explicit `% 256` wherever the Rust code performs
`u8` arithmetic or an `as u8` cast.  The bit-stream collaborators
(`BitReader` / `BitWriter`) are not part of the sources; they are
modelled from the spec as a `List Bool` read least-significant-bit
first, byte-padded on flush.  Fallible or panicking operations return
`Option`.
-/

namespace Huffman

/-- Model of `NodeData` from `huffman.rs`: a `HashSet<u8>` of byte values plus a
`usize` weight.  The hash set is modelled as a `List Nat` consulted only
through membership. -/
structure NodeData where
  chars : List Nat
  weight : Nat
deriving DecidableEq, Repr

/-- Model of `BinaryTree<NodeData>` specialised to the coding tree
(`BinaryTree::new_leaf` / `BinaryTree::new`). -/
inductive HTree where
  | leaf : NodeData → HTree
  | node : NodeData → HTree → HTree → HTree
deriving DecidableEq, Repr

/-- Accessor `tree.data()` (always `Some` on a constructed tree). -/
def HTree.data : HTree → NodeData
  | leaf d => d
  | node d _ _ => d

/-- Accessor `tree.is_leaf()`. -/
def HTree.isLeaf : HTree → Bool
  | leaf _ => true
  | node _ _ _ => false

/-- Model of `Code { length: u8, data: u8 }`. -/
structure Code where
  length : Nat
  data : Nat
deriving DecidableEq, Repr

/-- Model of `compression::new_parent`: the parent's char set is the union of the
children's sets and its weight is the sum of their weights; the first
argument becomes the left child. -/
def newParent (l r : HTree) : HTree :=
  HTree.node ⟨l.data.chars ∪ r.data.chars, l.data.weight + r.data.weight⟩ l r

/-- The `while i < n` loop of `compression::build_next_level`, with the
remaining slice of `level` as first argument and the partially built
`next_level` kept in reverse order (`push` is cons, `last` is head).
When the current node is the last one of the level, or the most recently
built parent is not heavier than it, the current node is absorbed into
that parent as its right child; otherwise the current node is paired
with its right neighbour.  `none` models the `unwrap` panic when the
last node is reached while `next_level` is still empty. -/
def buildNextLevelAux : Nat → List HTree → List HTree → Option (List HTree)
  | _, [], acc => some acc
  | 0, _ :: _, _ => none
  | _ + 1, [_], [] => none
  | _ + 1, [x], p :: ps => some (newParent p x :: ps)
  | fuel + 1, x :: y :: rest, [] => buildNextLevelAux fuel rest [newParent x y]
  | fuel + 1, x :: y :: rest, p :: ps =>
      if p.data.weight ≤ x.data.weight then
        buildNextLevelAux fuel (y :: rest) (newParent p x :: ps)
      else
        buildNextLevelAux fuel rest (newParent x y :: p :: ps)

/-- Wrapper: `compression::build_next_level` called, as in `build_tree`, with an
empty `next_level`.  The loop is fuelled by the length of the level;
every iteration consumes at least one remaining node while spending one
unit of fuel, so the fuel-exhaustion branch is unreachable. -/
def buildNextLevel (level : List HTree) : Option (List HTree) :=
  (buildNextLevelAux level.length level []).map List.reverse

/-- The `loop` of `compression::build_tree`, fuelled: the root is found
when the level holds exactly one node; otherwise the next level is
built and becomes the current one.  `none` models either fuel
exhaustion (the source loops forever when the level can never reach
length one, e.g. the empty level) or a panic inside
`build_next_level`. -/
def buildLoop : Nat → List HTree → Option HTree
  | 0, _ => none
  | _ + 1, [t] => some t
  | fuel + 1, level =>
      match buildNextLevel level with
      | some next => buildLoop fuel next
      | none => none

/-- Model of `compression::build_tree` after the frequency pass: sort the leaves
ascending by weight and run the merge loop.  Rust's `sort_by_key` is a
stable sort, and all stable sorts agree extensionally, so it is
modelled by insertion sort.  Fuel `leaves.length + 1` is sufficient
whenever the leaf list is nonempty; on the empty list every fuel
yields `none`, matching the source's infinite loop. -/
def buildTreeFromLeaves (leaves : List HTree) : Option HTree :=
  buildLoop (leaves.length + 1)
    (leaves.insertionSort (fun a b => a.data.weight ≤ b.data.weight))

/-- Model of `compression::compute_leaves`: one singleton leaf per distinct byte
value with its occurrence count.  The Rust `HashMap` iteration order is
unspecified; the model lists distinct values in `List.dedup` order (the
caller immediately sorts by weight). -/
def computeLeaves (input : List Nat) : List HTree :=
  input.dedup.map (fun c => HTree.leaf ⟨[c], input.count c⟩)

/-- Model of `compression::build_tree` proper. -/
def buildTree (input : List Nat) : Option HTree :=
  buildTreeFromLeaves (computeLeaves input)

/-- The descent loop of `compression::compute_code`, carrying the
current depth and the raw path value accumulated in the `BitSet`
(bit `i` set when step `i` goes right); returns them with the subtree
the loop stopped at. -/
def computeCodeAux (ch : Nat) : HTree → Nat → Nat → Nat × Nat × HTree
  | t@(HTree.leaf _), len, data => (len, data, t)
  | t@(HTree.node _ l r), len, data =>
      if ch ∈ l.data.chars then computeCodeAux ch l (len + 1) data
      else if ch ∈ r.data.chars then computeCodeAux ch r (len + 1) (data + 2 ^ len)
      else (len, data, t)

/-- Model of `compression::compute_code`.  `none` models the
`assert!(tree.is_leaf())` panic.  Both stored fields are 8-bit on disk:
`length as u8` and `code.as_slice()[0] as u8` keep only the low eight
bits of the depth and of the raw path value. -/
def computeCode (ch : Nat) (t : HTree) : Option Code :=
  match computeCodeAux ch t 0 0 with
  | (len, data, final) =>
      if final.isLeaf then some ⟨len % 256, data % 256⟩ else none

/-- Model of `compression::build_dictionary`: one entry per byte value of the
root's char set, in that set's iteration order; `none` propagates a
`compute_code` panic. -/
def buildDictionary (t : HTree) : Option (List (Nat × Code)) :=
  t.data.chars.mapM (fun ch => (computeCode ch t).map (fun c => (ch, c)))

/-- Model of `compression::write_dictionary`: the size byte `(len - 1) as u8`
followed by three bytes per entry (code length, code data, byte value).
`none` models the `usize` underflow panic on an empty dictionary. -/
def writeDictionary (dict : List (Nat × Code)) : Option (List Nat) :=
  match dict with
  | [] => none
  | _ =>
      some ((dict.length - 1) % 256 ::
        dict.flatMap (fun p => [p.2.length, p.2.data, p.1]))

/-- The bits of one code, least significant first: the
`for i in 0..code.length { (code.data & (1 << i)) > 0 }` loop of
`compression::write_compressed`. -/
def codeBits (c : Code) : List Bool :=
  (List.range c.length).map (fun i => c.data.testBit i)

/-- Model of `compression::write_compressed` after the rewind: look up each input
byte's code, write its bits, and count the bits written.  `none` models
the `unwrap` panic on a byte missing from the dictionary. -/
def writeCompressed (input : List Nat) (dict : List (Nat × Code)) :
    Option (List Bool × Nat) :=
  match input with
  | [] => some ([], 0)
  | b :: rest =>
      match List.lookup b dict with
      | none => none
      | some c =>
          (writeCompressed rest dict).map
            (fun p => (codeBits c ++ p.1, c.length + p.2))

/-- One byte as eight bits, least significant first.  Modelled from the
spec: the external `BitWriter`/`BitReader` pair only has to agree on a
byte order. -/
def byteToBits (b : Nat) : List Bool :=
  (List.range 8).map (fun i => b.testBit i)

/-- A byte sequence as a bit stream.  Modelled from the spec. -/
def bytesToBits (bs : List Nat) : List Bool :=
  bs.flatMap byteToBits

/-- Zero-padding to a whole number of bytes.  Modelled from the spec:
the payload region is "bit-packed, byte-padded at end" by the external
`BitWriter` on flush. -/
def padBits (bits : List Bool) : List Bool :=
  bits ++ List.replicate ((8 - bits.length % 8) % 8) false

/-- Model of `huffman::compress`: build the tree (`none` covers the source's
infinite loop on an empty input), derive and write the dictionary, then
write the payload bits.  The result is the emitted bit stream after the
writer's byte-padding flush, together with the returned
`bits_written`. -/
def compress (input : List Nat) : Option (List Bool × Nat) :=
  match buildTree input with
  | none => none
  | some t =>
      match buildDictionary t with
      | none => none
      | some dict =>
          match writeDictionary dict with
          | none => none
          | some header =>
              match writeCompressed input dict with
              | none => none
              | some pn => some (padBits (bytesToBits header ++ pn.1), pn.2)

/-- Model of `BitReader::read_byte`, modelled from the spec: eight sequential
bits, least significant first, failing at end of stream. -/
def readByteB (bits : List Bool) : Option (Nat × List Bool) :=
  if 8 ≤ bits.length then
    some ((bits.take 8).foldr (fun b acc => 2 * acc + (if b then 1 else 0)) 0,
      bits.drop 8)
  else none

/-- The record loop of `decompression::read_dictionary`, keeping entries
in read order. -/
def readDictRecords :
    Nat → List Bool → List (Code × Nat) → Option (List (Code × Nat) × List Bool)
  | 0, bits, acc => some (acc.reverse, bits)
  | n + 1, bits, acc =>
      match readByteB bits with
      | none => none
      | some (len, r1) =>
          match readByteB r1 with
          | none => none
          | some (data, r2) =>
              match readByteB r2 with
              | none => none
              | some (ch, r3) => readDictRecords n r3 ((⟨len, data⟩, ch) :: acc)

/-- Model of `decompression::read_dictionary`: one size byte interpreted through
`u8` arithmetic as `(max_index + 1) % 256`, then that many three-byte
records. -/
def readDictionary (bits : List Bool) : Option (List (Code × Nat) × List Bool) :=
  match readByteB bits with
  | none => none
  | some (maxIndex, rest) => readDictRecords ((maxIndex + 1) % 256) rest []

/-- The accumulation loop shared by `decompression::read_char` and
`HuffmanDecoder::read_char`, with the `u8` accumulator semantics made
explicit: `code.length += 1` wraps at 256 and the shift amount of
`1 << code.length` is masked to the low three bits as in release-mode
Rust.  Returns the decoded byte and the remaining bits, or `none` at
end of stream. -/
def readCharAux (dict : List (Code × Nat)) :
    List Bool → Code → Option (Nat × List Bool)
  | [], _ => none
  | b :: rest, code =>
      let code2 : Code :=
        ⟨(code.length + 1) % 256,
         if b then code.data ||| 2 ^ (code.length % 8) else code.data⟩
      match List.lookup code2 dict with
      | some ch => some (ch, rest)
      | none => readCharAux dict rest code2

/-- Model of `decompression::read_char`: accumulate bits from a zero code until a
dictionary entry matches. -/
def readChar (dict : List (Code × Nat)) (bits : List Bool) :
    Option (Nat × List Bool) :=
  readCharAux dict bits ⟨0, 0⟩

/-- The accumulated code after consuming a given bit-list prefix: the
`read_char` accumulator expressed as a fold, used to state when no
prefix of the remaining input matches any dictionary entry. -/
def accumCode : List Bool → Code → Code
  | [], c => c
  | b :: bs, c =>
      accumCode bs
        ⟨(c.length + 1) % 256,
         if b then c.data ||| 2 ^ (c.length % 8) else c.data⟩

/-- The `while let Some(ch) = read_char(..)` loop of
`decompression::read_compressed`, fuelled; each successful `read_char`
consumes at least one bit (`readCharAux_length`), so fuel
`bits.length` is always sufficient (`readCompressed_eq`). -/
def readCompressedFuel (dict : List (Code × Nat)) :
    Nat → List Bool → List Nat
  | 0, _ => []
  | fuel + 1, bits =>
      match readChar dict bits with
      | none => []
      | some (ch, rest) => ch :: readCompressedFuel dict fuel rest

/-- Model of `decompression::read_compressed`: decode bytes until `read_char`
hits end of stream, collecting the bytes written to the output. -/
def readCompressed (dict : List (Code × Nat)) (bits : List Bool) : List Nat :=
  readCompressedFuel dict bits.length bits

/-- Model of `huffman::decompress`: read the dictionary, then the payload;
returns the output bytes and the returned bit count `read_bytes * 8`. -/
def decompress (bits : List Bool) : Option (List Nat × Nat) :=
  match readDictionary bits with
  | none => none
  | some (dict, rest) =>
      let out := readCompressed dict rest
      some (out, out.length * 8)

/-- Composition `decompress ∘ compress` on a byte stream. -/
def roundTrip (input : List Nat) : Option (List Nat × Nat) :=
  match compress input with
  | none => none
  | some (stream, _) => decompress stream

/-- A `HuffmanDecoder` that has read its header (the Ready state): the
inverse dictionary, the whole input bit stream, and the reader's bit
position. -/
structure DecoderState where
  dict : List (Code × Nat)
  bits : List Bool
  pos : Nat
deriving DecidableEq, Repr

/-- The `while read_bytes < original_length_bytes` loop of
`HuffmanDecoder::decode`: a fixed number of symbol decodes from the
given bit suffix.  `none` models the `unreachable!` panic when
`read_char` hits end of stream first. -/
def decodeSymbols (dict : List (Code × Nat)) :
    Nat → List Bool → Option (List Nat × List Bool)
  | 0, bits => some ([], bits)
  | n + 1, bits =>
      match readChar dict bits with
      | none => none
      | some (ch, rest) =>
          match decodeSymbols dict n rest with
          | none => none
          | some p => some (ch :: p.1, p.2)

/-- Model of `HuffmanDecoder::decode`: zero requested bits returns zero at once,
before the seek; otherwise the reader seeks to `offsetBit`,
`lengthBits / 8` symbols are decoded and written to the output, the
sink is flushed, and `read_bytes * 8` is returned.  The returned state
records the reader's final bit position; the decoded bytes are the ones
written to the output sink. -/
def decode (st : DecoderState) (offsetBit lengthBits : Nat) :
    Option (DecoderState × List Nat × Nat) :=
  if lengthBits = 0 then some (st, [], 0)
  else
    match decodeSymbols st.dict (lengthBits / 8) (st.bits.drop offsetBit) with
    | none => none
    | some (out, rest) =>
        some
          ({ st with pos := offsetBit + ((st.bits.drop offsetBit).length - rest.length) },
           out, lengthBits / 8 * 8)

/-- The leaf subtrees of a coding tree, left to right. -/
def leavesOf : HTree → List HTree
  | t@(HTree.leaf _) => [t]
  | HTree.node _ l r => leavesOf l ++ leavesOf r

/-- The root-to-leaf descent path of a byte value as a bit list
(`false` = left): the specification-level view of the `compute_code`
loop. -/
def codePath (ch : Nat) : HTree → List Bool
  | HTree.leaf _ => []
  | HTree.node _ l r =>
      if ch ∈ l.data.chars then false :: codePath ch l
      else if ch ∈ r.data.chars then true :: codePath ch r
      else []

/-- The subtree the `compute_code` loop stops at. -/
def endTree (ch : Nat) : HTree → HTree
  | t@(HTree.leaf _) => t
  | t@(HTree.node _ l r) =>
      if ch ∈ l.data.chars then endTree ch l
      else if ch ∈ r.data.chars then endTree ch r
      else t

/-- The value of a bit list read least-significant-bit first. -/
def bitsVal : List Bool → Nat
  | [] => 0
  | b :: bs => (if b then 1 else 0) + 2 * bitsVal bs

/-- Char-set disjointness of two trees. -/
def TDisj (a b : HTree) : Prop :=
  ∀ x ∈ a.data.chars, x ∉ b.data.chars

/-- Structural well-formedness of a constructed coding tree: singleton
leaves, each internal node's char set the union of its children's
disjoint sets, and its weight their sum. -/
def WfTree : HTree → Prop
  | HTree.leaf d => ∃ c, d.chars = [c]
  | HTree.node d l r =>
      (∀ x, x ∈ d.chars ↔ x ∈ l.data.chars ∨ x ∈ r.data.chars) ∧
      (∀ x ∈ l.data.chars, x ∉ r.data.chars) ∧
      d.weight = l.data.weight + r.data.weight ∧ WfTree l ∧ WfTree r

/-- The invariant of the spec's data model (§3): singleton leaves,
union char sets and summed weights at internal nodes. -/
def TreeInv : HTree → Prop
  | HTree.leaf d => ∃ c, d.chars = [c]
  | HTree.node d l r =>
      (∀ x, x ∈ d.chars ↔ x ∈ l.data.chars ∨ x ∈ r.data.chars) ∧
      d.weight = l.data.weight + r.data.weight ∧ TreeInv l ∧ TreeInv r

/-- Input sanity for the tree builder: every leaf is a singleton leaf
node and distinct leaves carry disjoint (hence distinct) byte
values. -/
def LeavesOk (leaves : List HTree) : Prop :=
  (∀ l ∈ leaves, ∃ c w, l = HTree.leaf ⟨[c], w⟩) ∧ leaves.Pairwise TDisj

/-- Ten singleton leaves with ascending powers-of-two-like weights: every
merge round absorbs into the previous parent, so the first two leaves end
at depth nine.  Such leaves arise from a 512-byte input holding byte `i`
with the listed multiplicity. -/
def deepLeaves : List HTree :=
  [HTree.leaf ⟨[0], 1⟩, HTree.leaf ⟨[1], 1⟩, HTree.leaf ⟨[2], 2⟩, HTree.leaf ⟨[3], 4⟩,
   HTree.leaf ⟨[4], 8⟩, HTree.leaf ⟨[5], 16⟩, HTree.leaf ⟨[6], 32⟩, HTree.leaf ⟨[7], 64⟩,
   HTree.leaf ⟨[8], 128⟩, HTree.leaf ⟨[9], 256⟩]

theorem readCharAux_length {dict : List (Code × Nat)} :
    ∀ {bits : List Bool} {c : Code} {ch : Nat} {rest : List Bool},
      readCharAux dict bits c = some (ch, rest) → rest.length < bits.length := by
  intro bits
  induction bits with
  | nil => intro c ch rest h; simp [readCharAux] at h
  | cons b bs ih =>
      intro c ch rest h
      rw [readCharAux] at h
      revert h
      split
      · intro h
        cases h
        simp
      · intro h
        exact Nat.lt_trans (ih h) (by simp)

theorem readCompressedFuel_nil {dict : List (Code × Nat)} :
    ∀ fuel : Nat, readCompressedFuel dict fuel [] = [] := by
  intro fuel
  cases fuel with
  | zero => rfl
  | succ n => rfl

theorem readCompressedFuel_irrel {dict : List (Code × Nat)} :
    ∀ (f1 : Nat) (bits : List Bool) (f2 : Nat), bits.length ≤ f1 → bits.length ≤ f2 →
      readCompressedFuel dict f1 bits = readCompressedFuel dict f2 bits := by
  intro f1
  induction f1 with
  | zero =>
      intro bits f2 h1 _
      have hb : bits = [] := List.length_eq_zero.mp (Nat.le_zero.mp h1)
      subst hb
      rw [readCompressedFuel_nil, readCompressedFuel_nil]
  | succ n ih =>
      intro bits f2 h1 h2
      cases bits with
      | nil => rw [readCompressedFuel_nil, readCompressedFuel_nil]
      | cons b bs =>
          cases f2 with
          | zero => simp at h2
          | succ m =>
              rw [readCompressedFuel, readCompressedFuel]
              cases hrc : readChar dict (b :: bs) with
              | none => rfl
              | some p =>
                  obtain ⟨ch, rest⟩ := p
                  have hlt : rest.length < (b :: bs).length := readCharAux_length hrc
                  have hn : rest.length ≤ n := by
                    have := Nat.lt_of_lt_of_le hlt h1
                    omega
                  have hm : rest.length ≤ m := by
                    have := Nat.lt_of_lt_of_le hlt h2
                    omega
                  exact congrArg (fun l => ch :: l) (ih rest m hn hm)

/-- The loop equation of `read_compressed`: each successful `read_char`
consumes at least one bit, so the fuel in `readCompressed` never runs
out. -/
theorem readCompressed_eq (dict : List (Code × Nat)) (bits : List Bool) :
    readCompressed dict bits =
      match readChar dict bits with
      | none => []
      | some p => p.1 :: readCompressed dict p.2 := by
  cases bits with
  | nil =>
      have : readChar dict ([] : List Bool) = none := rfl
      rw [this]
      rfl
  | cons b bs =>
      rw [readCompressed]
      rw [show (b :: bs).length = bs.length + 1 from rfl]
      rw [readCompressedFuel]
      cases hrc : readChar dict (b :: bs) with
      | none => rfl
      | some p =>
          obtain ⟨ch, rest⟩ := p
          have hlt : rest.length < (b :: bs).length := readCharAux_length hrc
          have hle : rest.length ≤ bs.length := by
            have : rest.length < bs.length + 1 := by simpa using hlt
            omega
          exact congrArg (fun l => ch :: l)
            (readCompressedFuel_irrel bs.length rest rest.length hle (Nat.le_refl _))

/-- C1: the round-trip claim, settled. The round-trip claim fails on the code: for the input
`"aaa"` (one distinct byte value, so the single leaf is the whole tree
and its code has length zero) `compress` emits a four-byte header and
zero payload bits, and `decompress` — which can match a code only after
consuming at least one bit — returns the empty output with bit length
0, not the original three bytes with bit length 24. -/
theorem roundTrip_aaa_fails :
    roundTrip [97, 97, 97] = some ([], 0) ∧
      roundTrip [97, 97, 97] ≠ some ([97, 97, 97], 24) := by decide

theorem buildLoop_nil : ∀ fuel : Nat, buildLoop fuel ([] : List HTree) = none
  | 0 => rfl
  | fuel + 1 => by
      have h : buildLoop (fuel + 1) ([] : List HTree) = buildLoop fuel [] := rfl
      rw [h, buildLoop_nil fuel]

/-- C3: the empty-input claim, settled. Compressing a zero-length input stream does not terminate:
`build_next_level` maps an empty level to an empty level, so the
`build_tree` loop never reaches a one-node level — the loop yields no
root for any fuel, and `compress` of the empty stream produces no
header and no payload at all, instead of the claimed zero-or-one-entry
header with zero payload bits. -/
theorem compress_empty_diverges :
    (∀ fuel : Nat, buildLoop fuel ([] : List HTree) = none) ∧
      compress ([] : List Nat) = none :=
  ⟨buildLoop_nil, rfl⟩

/-- C2: the depth-limit claim, settled. `compute_code` does not abort on a root-to-leaf path deeper
than eight: on the tree built from `deepLeaves`, byte 1 sits at depth 9
(its raw path value is 256, i.e. bit 8 set), yet `compute_code` returns
the code `⟨9, 0⟩` — the data byte silently truncated to the low eight
bits — rather than failing. -/
theorem computeCode_depth_nine_truncates :
    (buildTreeFromLeaves deepLeaves).bind (computeCode 1) = some ⟨9, 0⟩ ∧
      (buildTreeFromLeaves deepLeaves).map (fun t => (codePath 1 t).length) = some 9 ∧
      (buildTreeFromLeaves deepLeaves).map (fun t => bitsVal (codePath 1 t)) = some 256 := by
  decide

/-- C4, counterexample. On the coding tree built from `deepLeaves`,
the dictionary maps the two distinct byte values 0 and 1 to the same
`(length, data)` pair `⟨9, 0⟩` (the depth-9 codes collide after the
8-bit truncation of `compute_code`), so the claim fails as stated. -/
theorem buildDictionary_collision :
    ((buildTreeFromLeaves deepLeaves).bind buildDictionary).map
        (fun d => (List.lookup 0 d, List.lookup 1 d)) =
      some (some ⟨9, 0⟩, some ⟨9, 0⟩) ∧ (0 : Nat) ≠ 1 := by decide

/-- C6: the dictionary-size claim, settled. `read_dictionary` computes the record count as the `u8` sum
`max_index + 1`: a size byte of 255 overflows to a count of 0 (a panic
in a debug build), so zero records are read even when records follow —
a 256-entry dictionary is not readable.  For contrast, size byte 0
correctly reads one record. -/
theorem readDictionary_size_byte_255 :
    readDictionary (byteToBits 255 ++ bytesToBits [2, 5, 7]) =
        some ([], bytesToBits [2, 5, 7]) ∧
      readDictionary (byteToBits 0 ++ bytesToBits [2, 5, 7]) =
        some ([(⟨2, 5⟩, 7)], []) ∧
      (255 + 1) % 256 = 0 := by decide

/-- C9: the zero-length decode claim. `decode` with `length_bits = 0` returns zero immediately:
no seek is performed, no byte is written, and the returned state — bit
position and dictionary included — is exactly the input state. -/
theorem decode_zero_length (st : DecoderState) (offsetBit : Nat) :
    decode st offsetBit 0 = some (st, [], 0) := rfl

theorem decodeSymbols_length {dict : List (Code × Nat)} :
    ∀ {n : Nat} {bits : List Bool} {out : List Nat} {rest : List Bool},
      decodeSymbols dict n bits = some (out, rest) → out.length = n := by
  intro n
  induction n with
  | zero =>
      intro bits out rest h
      simp [decodeSymbols] at h
      rw [h.1]
      rfl
  | succ m ih =>
      intro bits out rest h
      cases hrc : readChar dict bits with
      | none => simp [decodeSymbols, hrc] at h
      | some p =>
          obtain ⟨ch, r⟩ := p
          cases hd : decodeSymbols dict m r with
          | none => simp [decodeSymbols, hrc, hd] at h
          | some q =>
              simp [decodeSymbols, hrc, hd] at h
              rw [← h.1]
              simp [ih hd]

/-- C5: the positive-length decode claim. `decode` with positive `length_bits`, under the
precondition that `length_bits / 8` symbol decodes succeed past the
seek target: it seeks to `offset_bits` (the output state's position is
the offset plus the bits consumed from there), decodes exactly
`length_bits / 8` symbols — a non-multiple-of-8 request is
byte-truncated by the integer division — writes them to the output,
and returns `read_bytes * 8` with `read_bytes = length_bits / 8`. -/
theorem decode_positive_spec (st : DecoderState) (offsetBit lengthBits : Nat)
    (out : List Nat) (rest : List Bool)
    (hpos : 0 < lengthBits)
    (hdec : decodeSymbols st.dict (lengthBits / 8) (st.bits.drop offsetBit) =
      some (out, rest)) :
    decode st offsetBit lengthBits =
        some ({ st with
            pos := offsetBit + ((st.bits.drop offsetBit).length - rest.length) },
          out, lengthBits / 8 * 8) ∧
      out.length = lengthBits / 8 := by
  constructor
  · unfold decode
    rw [if_neg (Nat.pos_iff_ne_zero.mp hpos), hdec]
  · exact decodeSymbols_length hdec

/-- Witness for `decode_positive_spec`: a one-entry dictionary, a
two-bit stream, a request for 8 bits decoding one symbol. -/
theorem decode_positive_spec_witness :
    decode ⟨[(⟨1, 0⟩, 65)], [false, false], 0⟩ 0 8 =
        some (⟨[(⟨1, 0⟩, 65)], [false, false], 1⟩, [65], 8) ∧
      ([65] : List Nat).length = 8 / 8 :=
  decode_positive_spec ⟨[(⟨1, 0⟩, 65)], [false, false], 0⟩ 0 8 [65] [false]
    (by decide) (by decide)

theorem accumCode_append :
    ∀ (xs ys : List Bool) (c : Code),
      accumCode (xs ++ ys) c = accumCode ys (accumCode xs c)
  | [], _, _ => rfl
  | x :: xs, ys, c => by
      rw [List.cons_append, accumCode, accumCode]
      exact accumCode_append xs ys _

theorem readCharAux_unmatched {dict : List (Code × Nat)} :
    ∀ (bits : List Bool) (c : Code),
      (∀ p ∈ bits.inits, p ≠ [] → List.lookup (accumCode p c) dict = none) →
      readCharAux dict bits c = none := by
  intro bits
  induction bits with
  | nil => intro c _; rfl
  | cons b bs ih =>
      intro c h
      have h1 : List.lookup (accumCode [b] c) dict = none := by
        refine h [b] ?_ (by simp)
        rw [List.mem_inits, List.cons_prefix_cons]
        exact ⟨rfl, List.nil_prefix⟩
      rw [accumCode, accumCode] at h1
      rw [readCharAux]
      simp only [h1]
      apply ih
      intro p hp hne
      have hmem : (b :: p) ∈ (b :: bs).inits := by
        rw [List.mem_inits] at hp ⊢
        exact List.cons_prefix_cons.mpr ⟨rfl, hp⟩
      have h2 := h (b :: p) hmem (by simp)
      rw [show (b :: p) = [b] ++ p from rfl, accumCode_append] at h2
      rw [accumCode, accumCode] at h2
      exact h2

/-- C8: the decompression-exhaustion claim. Decompression stops exactly at end of stream and treats
trailing unmatched bits as padding: (i) whenever no nonempty prefix of
the remaining bits accumulates to a dictionary code, `read_char`
returns no byte and `read_compressed` emits nothing — the partial bits
are discarded without error; (ii) whenever `read_char` does decode a
byte, `read_compressed` emits it and continues on the remaining bits,
so decoding only ever terminates by exhausting the input. -/
theorem readCompressed_exhaustion :
    (∀ (dict : List (Code × Nat)) (bits : List Bool),
        (∀ p ∈ bits.inits, p ≠ [] → List.lookup (accumCode p ⟨0, 0⟩) dict = none) →
        readChar dict bits = none ∧ readCompressed dict bits = []) ∧
    (∀ (dict : List (Code × Nat)) (bits : List Bool) (ch : Nat) (rest : List Bool),
        readChar dict bits = some (ch, rest) →
        readCompressed dict bits = ch :: readCompressed dict rest) := by
  constructor
  · intro dict bits h
    have hn : readChar dict bits = none := readCharAux_unmatched bits ⟨0, 0⟩ h
    refine ⟨hn, ?_⟩
    rw [readCompressed_eq, hn]
  · intro dict bits ch rest h
    rw [readCompressed_eq, h]

/-- Witness for `readCompressed_exhaustion`: a stream ending mid-code is
discarded silently, and a decodable stream emits its byte and
continues. -/
theorem readCompressed_exhaustion_witness :
    (readChar [(⟨2, 1⟩, 65)] [true] = none ∧
        readCompressed [(⟨2, 1⟩, 65)] [true] = []) ∧
      readCompressed [(⟨1, 1⟩, 66)] [true, false] =
        66 :: readCompressed [(⟨1, 1⟩, 66)] [false] :=
  ⟨readCompressed_exhaustion.1 [(⟨2, 1⟩, 65)] [true] (by decide),
   readCompressed_exhaustion.2 [(⟨1, 1⟩, 66)] [true, false] 66 [false] (by decide)⟩

theorem buildNextLevelAux_spec :
    ∀ (fuel : Nat) (rem acc : List HTree), rem.length ≤ fuel → acc ≠ [] →
      ∃ res, buildNextLevelAux fuel rem acc = some res ∧ res ≠ [] ∧
        res.reverse.flatMap leavesOf =
          acc.reverse.flatMap leavesOf ++ rem.flatMap leavesOf ∧
        (∀ t ∈ res, t ∈ acc ∨ t.isLeaf = false) := by
  intro fuel
  induction fuel with
  | zero =>
      intro rem acc hlen hne
      have hrem : rem = [] := List.length_eq_zero.mp (Nat.le_zero.mp hlen)
      subst hrem
      exact ⟨acc, rfl, hne, by simp, fun t ht => Or.inl ht⟩
  | succ n ih =>
      intro rem acc hlen hne
      cases rem with
      | nil => exact ⟨acc, rfl, hne, by simp, fun t ht => Or.inl ht⟩
      | cons x rem1 =>
          cases acc with
          | nil => exact absurd rfl hne
          | cons p ps =>
              cases rem1 with
              | nil =>
                  refine ⟨newParent p x :: ps, rfl, by simp, ?_, ?_⟩
                  · simp [List.reverse_cons, List.flatMap_append, List.flatMap_cons,
                      newParent, leavesOf, List.append_assoc]
                  · intro t ht
                    rcases List.mem_cons.mp ht with h | h
                    · right; rw [h]; rfl
                    · left; exact List.mem_cons_of_mem _ h
              | cons y rest =>
                  by_cases hw : p.data.weight ≤ x.data.weight
                  · obtain ⟨res, heq, hne2, hflat, helem⟩ :=
                      ih (y :: rest) (newParent p x :: ps)
                        (by simp at hlen ⊢; omega) (by simp)
                    refine ⟨res, ?_, hne2, ?_, ?_⟩
                    · rw [show buildNextLevelAux (n + 1) (x :: y :: rest) (p :: ps) =
                          if p.data.weight ≤ x.data.weight then
                            buildNextLevelAux n (y :: rest) (newParent p x :: ps)
                          else
                            buildNextLevelAux n rest (newParent x y :: p :: ps) from rfl,
                        if_pos hw]
                      exact heq
                    · rw [hflat]
                      simp [List.reverse_cons, List.flatMap_append, List.flatMap_cons,
                        newParent, leavesOf, List.append_assoc]
                    · intro t ht
                      rcases helem t ht with h | h
                      · rcases List.mem_cons.mp h with h2 | h2
                        · right; rw [h2]; rfl
                        · left; exact List.mem_cons_of_mem _ h2
                      · right; exact h
                  · obtain ⟨res, heq, hne2, hflat, helem⟩ :=
                      ih rest (newParent x y :: p :: ps)
                        (by simp at hlen ⊢; omega) (by simp)
                    refine ⟨res, ?_, hne2, ?_, ?_⟩
                    · rw [show buildNextLevelAux (n + 1) (x :: y :: rest) (p :: ps) =
                          if p.data.weight ≤ x.data.weight then
                            buildNextLevelAux n (y :: rest) (newParent p x :: ps)
                          else
                            buildNextLevelAux n rest (newParent x y :: p :: ps) from rfl,
                        if_neg hw]
                      exact heq
                    · rw [hflat]
                      simp [List.reverse_cons, List.flatMap_append, List.flatMap_cons,
                        newParent, leavesOf, List.append_assoc]
                    · intro t ht
                      rcases helem t ht with h | h
                      · rcases List.mem_cons.mp h with h2 | h2
                        · right; rw [h2]; rfl
                        · rcases List.mem_cons.mp h2 with h3 | h3
                          · left; rw [h3]; exact List.mem_cons_self _ _
                          · left; exact List.mem_cons_of_mem _ h3
                      · right; exact h

/-- C10: the no-unmerged-carry claim. `build_next_level` on a level of at least two nodes never
carries a node up unmerged: it succeeds, every produced node is an
internal node (so it combines at least two current-level nodes), and
the produced nodes' leaves are exactly the level's leaves in order.
Moreover, when the last node of the level is reached it is merged into
the most recently created parent as its right child regardless of the
weight comparison. -/
theorem buildNextLevel_no_carry :
    (∀ level : List HTree, 2 ≤ level.length →
        ∃ res, buildNextLevel level = some res ∧
          (∀ t ∈ res, t.isLeaf = false) ∧
          res.flatMap leavesOf = level.flatMap leavesOf) ∧
    (∀ (fuel : Nat) (x p : HTree) (ps : List HTree),
        buildNextLevelAux (fuel + 1) [x] (p :: ps) = some (newParent p x :: ps)) := by
  constructor
  · intro level hlen
    cases level with
    | nil => simp at hlen
    | cons x rem1 =>
        cases rem1 with
        | nil => simp at hlen
        | cons y rest =>
            obtain ⟨res, heq, hne, hflat, helem⟩ :=
              buildNextLevelAux_spec (rest.length + 1) rest [newParent x y]
                (by simp) (by simp)
            refine ⟨res.reverse, ?_, ?_, ?_⟩
            · unfold buildNextLevel
              rw [show (x :: y :: rest).length = rest.length + 2 by simp]
              rw [show buildNextLevelAux (rest.length + 2) (x :: y :: rest) [] =
                    buildNextLevelAux (rest.length + 1) rest [newParent x y] from rfl,
                heq]
              rfl
            · intro t ht
              rw [List.mem_reverse] at ht
              rcases helem t ht with h | h
              · rw [List.mem_singleton.mp h]; rfl
              · exact h
            · rw [hflat]
              simp [newParent, leavesOf, List.flatMap_cons, List.append_assoc]
  · intro fuel x p ps
    rfl

/-- Witness for `buildNextLevel_no_carry`: a two-leaf level. -/
theorem buildNextLevel_no_carry_witness :
    ∃ res, buildNextLevel [HTree.leaf ⟨[0], 1⟩, HTree.leaf ⟨[1], 2⟩] = some res ∧
      (∀ t ∈ res, t.isLeaf = false) ∧
      res.flatMap leavesOf =
        [HTree.leaf ⟨[0], 1⟩, HTree.leaf ⟨[1], 2⟩].flatMap leavesOf :=
  buildNextLevel_no_carry.1 [HTree.leaf ⟨[0], 1⟩, HTree.leaf ⟨[1], 2⟩] (by decide)

theorem TDisj_symm {a b : HTree} (h : TDisj a b) : TDisj b a := by
  intro x hx hxa
  exact h x hxa hx

theorem mem_newParent {x : Nat} {l r : HTree} :
    x ∈ (newParent l r).data.chars ↔ x ∈ l.data.chars ∨ x ∈ r.data.chars := by
  simp [newParent, HTree.data, List.mem_union_iff]

theorem TDisj_newParent_left {l r c : HTree} (hl : TDisj l c) (hr : TDisj r c) :
    TDisj (newParent l r) c := by
  intro x hx
  rcases mem_newParent.mp hx with h | h
  · exact hl x h
  · exact hr x h

theorem WfTree_newParent {l r : HTree} (hl : WfTree l) (hr : WfTree r)
    (hd : TDisj l r) : WfTree (newParent l r) := by
  refine ⟨fun x => mem_newParent, hd, rfl, hl, hr⟩

theorem buildNextLevelAux_wf :
    ∀ (fuel : Nat) (rem acc res : List HTree),
      buildNextLevelAux fuel rem acc = some res →
      (∀ t ∈ acc, WfTree t) → (∀ t ∈ rem, WfTree t) →
      List.Pairwise TDisj acc → List.Pairwise TDisj rem →
      (∀ a ∈ acc, ∀ b ∈ rem, TDisj a b) →
      (∀ t ∈ res, WfTree t) ∧ List.Pairwise TDisj res := by
  intro fuel
  induction fuel with
  | zero =>
      intro rem acc res heq hwa hwr hpa hpr hcross
      cases rem with
      | nil => cases heq; exact ⟨hwa, hpa⟩
      | cons x rem1 => cases heq
  | succ n ih =>
      intro rem acc res heq hwa hwr hpa hpr hcross
      cases rem with
      | nil => cases heq; exact ⟨hwa, hpa⟩
      | cons x rem1 =>
          cases acc with
          | nil =>
              cases rem1 with
              | nil => cases heq
              | cons y rest =>
                  have hxy : TDisj x y := List.rel_of_pairwise_cons hpr (by simp)
                  refine ih rest [newParent x y] res heq ?_ ?_ ?_ ?_ ?_
                  · intro t ht
                    rw [List.mem_singleton.mp ht]
                    exact WfTree_newParent (hwr x (by simp)) (hwr y (by simp)) hxy
                  · intro t ht; exact hwr t (by simp [ht])
                  · simp
                  · exact (List.pairwise_cons.mp (List.pairwise_cons.mp hpr).2).2
                  · intro a ha b hb
                    rw [List.mem_singleton.mp ha]
                    refine TDisj_newParent_left ?_ ?_
                    · exact List.rel_of_pairwise_cons hpr (by simp [hb])
                    · exact List.rel_of_pairwise_cons
                        (List.pairwise_cons.mp hpr).2 (by simp [hb])
          | cons p ps =>
              cases rem1 with
              | nil =>
                  cases heq
                  constructor
                  · intro t ht
                    rcases List.mem_cons.mp ht with h | h
                    · rw [h]
                      exact WfTree_newParent (hwa p (by simp)) (hwr x (by simp))
                        (hcross p (by simp) x (by simp))
                    · exact hwa t (List.mem_cons_of_mem _ h)
                  · rw [List.pairwise_cons]
                    refine ⟨?_, (List.pairwise_cons.mp hpa).2⟩
                    intro q hq
                    refine TDisj_newParent_left ?_ ?_
                    · exact List.rel_of_pairwise_cons hpa hq
                    · exact TDisj_symm (hcross q (List.mem_cons_of_mem _ hq) x (by simp))
              | cons y rest =>
                  have hstep : buildNextLevelAux (n + 1) (x :: y :: rest) (p :: ps) =
                      if p.data.weight ≤ x.data.weight then
                        buildNextLevelAux n (y :: rest) (newParent p x :: ps)
                      else
                        buildNextLevelAux n rest (newParent x y :: p :: ps) := rfl
                  rw [hstep] at heq
                  by_cases hw : p.data.weight ≤ x.data.weight
                  · rw [if_pos hw] at heq
                    refine ih (y :: rest) (newParent p x :: ps) res heq ?_ ?_ ?_ ?_ ?_
                    · intro t ht
                      rcases List.mem_cons.mp ht with h | h
                      · rw [h]
                        exact WfTree_newParent (hwa p (by simp)) (hwr x (by simp))
                          (hcross p (by simp) x (by simp))
                      · exact hwa t (List.mem_cons_of_mem _ h)
                    · intro t ht; exact hwr t (List.mem_cons_of_mem _ ht)
                    · rw [List.pairwise_cons]
                      refine ⟨?_, (List.pairwise_cons.mp hpa).2⟩
                      intro q hq
                      refine TDisj_newParent_left ?_ ?_
                      · exact List.rel_of_pairwise_cons hpa hq
                      · exact TDisj_symm (hcross q (List.mem_cons_of_mem _ hq) x (by simp))
                    · exact (List.pairwise_cons.mp hpr).2
                    · intro a ha b hb
                      rcases List.mem_cons.mp ha with h | h
                      · rw [h]
                        refine TDisj_newParent_left ?_ ?_
                        · exact hcross p (by simp) b (List.mem_cons_of_mem _ hb)
                        · exact List.rel_of_pairwise_cons hpr hb
                      · exact hcross a (List.mem_cons_of_mem _ h) b
                          (List.mem_cons_of_mem _ hb)
                  · rw [if_neg hw] at heq
                    have hxy : TDisj x y := List.rel_of_pairwise_cons hpr (by simp)
                    refine ih rest (newParent x y :: p :: ps) res heq ?_ ?_ ?_ ?_ ?_
                    · intro t ht
                      rcases List.mem_cons.mp ht with h | h
                      · rw [h]
                        exact WfTree_newParent (hwr x (by simp)) (hwr y (by simp)) hxy
                      · exact hwa t h
                    · intro t ht
                      exact hwr t (List.mem_cons_of_mem _ (List.mem_cons_of_mem _ ht))
                    · rw [List.pairwise_cons]
                      refine ⟨?_, hpa⟩
                      intro q hq
                      refine TDisj_newParent_left ?_ ?_
                      · exact TDisj_symm (hcross q hq x (by simp))
                      · exact TDisj_symm (hcross q hq y (by simp))
                    · exact (List.pairwise_cons.mp (List.pairwise_cons.mp hpr).2).2
                    · intro a ha b hb
                      rcases List.mem_cons.mp ha with h | h
                      · rw [h]
                        refine TDisj_newParent_left ?_ ?_
                        · exact List.rel_of_pairwise_cons hpr (List.mem_cons_of_mem _ hb)
                        · exact List.rel_of_pairwise_cons
                            (List.pairwise_cons.mp hpr).2 hb
                      · exact hcross a h b
                          (List.mem_cons_of_mem _ (List.mem_cons_of_mem _ hb))

theorem buildNextLevel_flatMap {x y : HTree} {rest next : List HTree}
    (heq : buildNextLevel (x :: y :: rest) = some next) :
    next.flatMap leavesOf = (x :: y :: rest).flatMap leavesOf := by
  obtain ⟨res, haux, hne, hflat, helem⟩ :=
    buildNextLevelAux_spec (rest.length + 1) rest [newParent x y] (by simp) (by simp)
  have hbn : buildNextLevel (x :: y :: rest) = some res.reverse := by
    unfold buildNextLevel
    rw [show (x :: y :: rest).length = rest.length + 2 by simp,
      show buildNextLevelAux (rest.length + 2) (x :: y :: rest) [] =
        buildNextLevelAux (rest.length + 1) rest [newParent x y] from rfl, haux]
    rfl
  rw [hbn] at heq
  cases heq
  rw [hflat]
  simp [newParent, leavesOf, List.flatMap_cons, List.append_assoc]

theorem buildNextLevel_wf {level next : List HTree}
    (heq : buildNextLevel level = some next)
    (hw : ∀ t ∈ level, WfTree t) (hp : List.Pairwise TDisj level) :
    (∀ t ∈ next, WfTree t) ∧ List.Pairwise TDisj next := by
  unfold buildNextLevel at heq
  cases haux : buildNextLevelAux level.length level [] with
  | none => rw [haux] at heq; cases heq
  | some res =>
      rw [haux] at heq
      cases heq
      obtain ⟨hwres, hpres⟩ := buildNextLevelAux_wf level.length level [] res haux
        (by simp) hw (by simp) hp (by simp)
      constructor
      · intro t ht
        exact hwres t (List.mem_reverse.mp ht)
      · rw [List.pairwise_reverse]
        exact hpres.imp (fun h => TDisj_symm h)

theorem buildLoop_wf :
    ∀ (fuel : Nat) (level : List HTree) (t : HTree),
      buildLoop fuel level = some t →
      (∀ x ∈ level, WfTree x) → List.Pairwise TDisj level → WfTree t := by
  intro fuel
  induction fuel with
  | zero => intro level t heq _ _; cases heq
  | succ n ih =>
      intro level t heq hw hp
      cases level with
      | nil => rw [buildLoop_nil] at heq; cases heq
      | cons x rem1 =>
          cases rem1 with
          | nil =>
              have hx : buildLoop (n + 1) [x] = some x := rfl
              rw [hx] at heq
              rw [← Option.some.inj heq]
              exact hw x (by simp)
          | cons y rest =>
              have hstep : buildLoop (n + 1) (x :: y :: rest) =
                  match buildNextLevel (x :: y :: rest) with
                  | some next => buildLoop n next
                  | none => none := rfl
              rw [hstep] at heq
              cases hb : buildNextLevel (x :: y :: rest) with
              | none => rw [hb] at heq; cases heq
              | some next =>
                  rw [hb] at heq
                  obtain ⟨hw2, hp2⟩ := buildNextLevel_wf hb hw hp
                  exact ih next t heq hw2 hp2

theorem buildLoop_leaves :
    ∀ (fuel : Nat) (level : List HTree) (t : HTree),
      buildLoop fuel level = some t →
      leavesOf t = level.flatMap leavesOf := by
  intro fuel
  induction fuel with
  | zero => intro level t heq; cases heq
  | succ n ih =>
      intro level t heq
      cases level with
      | nil => rw [buildLoop_nil] at heq; cases heq
      | cons x rem1 =>
          cases rem1 with
          | nil =>
              have hx : buildLoop (n + 1) [x] = some x := rfl
              rw [hx] at heq
              rw [← Option.some.inj heq]
              simp
          | cons y rest =>
              have hstep : buildLoop (n + 1) (x :: y :: rest) =
                  match buildNextLevel (x :: y :: rest) with
                  | some next => buildLoop n next
                  | none => none := rfl
              rw [hstep] at heq
              cases hb : buildNextLevel (x :: y :: rest) with
              | none => rw [hb] at heq; cases heq
              | some next =>
                  rw [hb] at heq
                  rw [ih next t heq, buildNextLevel_flatMap hb]

theorem WfTree_weight : ∀ t : HTree, WfTree t →
    t.data.weight = ((leavesOf t).map (fun l => l.data.weight)).sum := by
  intro t
  induction t with
  | leaf d => intro _; simp [leavesOf, HTree.data]
  | node d l r ihl ihr =>
      intro hw
      obtain ⟨_, _, hsum, hwl, hwr⟩ := hw
      show d.weight = _
      rw [hsum, ihl hwl, ihr hwr]
      simp [leavesOf]

theorem WfTree_TreeInv : ∀ t : HTree, WfTree t → TreeInv t := by
  intro t
  induction t with
  | leaf d => intro h; exact h
  | node d l r ihl ihr =>
      intro h
      obtain ⟨hmem, _, hsum, hl, hr⟩ := h
      exact ⟨hmem, hsum, ihl hl, ihr hr⟩

theorem flatMap_leavesOf_of_leaves :
    ∀ L : List HTree, (∀ x ∈ L, ∃ d, x = HTree.leaf d) →
      L.flatMap leavesOf = L := by
  intro L
  induction L with
  | nil => intro _; rfl
  | cons a l ih =>
      intro h
      obtain ⟨d, hd⟩ := h a (by simp)
      rw [List.flatMap_cons, ih (fun x hx => h x (List.mem_cons_of_mem _ hx)), hd]
      rfl

/-- C7: the tree-invariant claim. For a coding tree built by `build_tree` from at least two
well-formed leaves: every internal node's char set is the union of its
children's sets, its weight the sum of their weights, every leaf's char
set a singleton (`TreeInv`), and the root weight equals the sum of all
the input leaves' weights. -/
theorem buildTree_invariants (leaves : List HTree) (t : HTree)
    (hok : LeavesOk leaves) (hlen : 2 ≤ leaves.length)
    (heq : buildTreeFromLeaves leaves = some t) :
    TreeInv t ∧ t.data.weight = (leaves.map (fun l => l.data.weight)).sum := by
  unfold buildTreeFromLeaves at heq
  have hperm := List.perm_insertionSort
    (fun a b : HTree => a.data.weight ≤ b.data.weight) leaves
  have hw : ∀ x ∈ leaves.insertionSort
      (fun a b : HTree => a.data.weight ≤ b.data.weight), WfTree x := by
    intro x hx
    obtain ⟨c, w, hc⟩ := hok.1 x (hperm.mem_iff.mp hx)
    rw [hc]
    exact ⟨c, rfl⟩
  have hp : List.Pairwise TDisj (leaves.insertionSort
      (fun a b : HTree => a.data.weight ≤ b.data.weight)) :=
    (List.Perm.pairwise_iff (fun h => TDisj_symm h) hperm).mpr hok.2
  refine ⟨WfTree_TreeInv t (buildLoop_wf _ _ t heq hw hp), ?_⟩
  rw [WfTree_weight t (buildLoop_wf _ _ t heq hw hp), buildLoop_leaves _ _ t heq]
  rw [flatMap_leavesOf_of_leaves _ (fun x hx => by
    obtain ⟨c, w, hc⟩ := hok.1 x (hperm.mem_iff.mp hx)
    exact ⟨⟨[c], w⟩, hc⟩)]
  exact ((hperm.map (fun l => l.data.weight)).sum_eq)

/-- Witness for `buildTree_invariants`: two singleton leaves of weights
1 and 2. -/
theorem buildTree_invariants_witness :
    TreeInv (HTree.node ⟨[0, 1], 3⟩ (HTree.leaf ⟨[0], 1⟩) (HTree.leaf ⟨[1], 2⟩)) ∧
      (HTree.node ⟨[0, 1], 3⟩ (HTree.leaf ⟨[0], 1⟩)
          (HTree.leaf ⟨[1], 2⟩)).data.weight =
        ([HTree.leaf ⟨[0], 1⟩, HTree.leaf ⟨[1], 2⟩].map
          (fun l => l.data.weight)).sum :=
  buildTree_invariants [HTree.leaf ⟨[0], 1⟩, HTree.leaf ⟨[1], 2⟩]
    (HTree.node ⟨[0, 1], 3⟩ (HTree.leaf ⟨[0], 1⟩) (HTree.leaf ⟨[1], 2⟩))
    ⟨fun l hl => by
        rcases List.mem_cons.mp hl with h | h
        · exact ⟨0, 1, h⟩
        · exact ⟨1, 2, List.mem_singleton.mp h⟩,
      List.pairwise_cons.mpr
        ⟨fun b hb => by
            rw [List.mem_singleton.mp hb]
            intro z hz
            simp [HTree.data] at hz ⊢
            omega,
          List.pairwise_singleton _ _⟩⟩
    (by decide) (by decide)

theorem computeCodeAux_path (ch : Nat) :
    ∀ (t : HTree) (len data : Nat),
      computeCodeAux ch t len data =
        (len + (codePath ch t).length,
         data + 2 ^ len * bitsVal (codePath ch t), endTree ch t) := by
  intro t
  induction t with
  | leaf d => intro len data; simp [computeCodeAux, codePath, endTree, bitsVal]
  | node d l r ihl ihr =>
      intro len data
      by_cases h1 : ch ∈ l.data.chars
      · rw [show computeCodeAux ch (HTree.node d l r) len data =
            computeCodeAux ch l (len + 1) data from by
              simp [computeCodeAux, h1]]
        rw [ihl (len + 1) data]
        simp only [codePath, endTree, if_pos h1, List.length_cons, Prod.mk.injEq]
        refine ⟨by omega, ?_, by trivial⟩
        simp [bitsVal]
        ring
      · by_cases h2 : ch ∈ r.data.chars
        · rw [show computeCodeAux ch (HTree.node d l r) len data =
              computeCodeAux ch r (len + 1) (data + 2 ^ len) from by
                simp [computeCodeAux, h1, h2]]
          rw [ihr (len + 1) (data + 2 ^ len)]
          simp only [codePath, endTree, if_neg h1, if_pos h2, List.length_cons,
            Prod.mk.injEq]
          refine ⟨by omega, ?_, by trivial⟩
          simp [bitsVal]
          ring
        · simp [computeCodeAux, codePath, endTree, h1, h2, bitsVal]

theorem endTree_isLeaf (ch : Nat) :
    ∀ t : HTree, WfTree t → ch ∈ t.data.chars → (endTree ch t).isLeaf = true := by
  intro t
  induction t with
  | leaf d => intro _ _; rfl
  | node d l r ihl ihr =>
      intro hw hmem
      obtain ⟨hiff, _, _, hwl, hwr⟩ := hw
      by_cases h1 : ch ∈ l.data.chars
      · rw [show endTree ch (HTree.node d l r) = endTree ch l from by
          simp [endTree, h1]]
        exact ihl hwl h1
      · have h2 : ch ∈ r.data.chars := by
          rcases (hiff ch).mp hmem with h | h
          · exact absurd h h1
          · exact h
        rw [show endTree ch (HTree.node d l r) = endTree ch r from by
          simp [endTree, h1, h2]]
        exact ihr hwr h2

theorem computeCode_eq {ch : Nat} {t : HTree} (hw : WfTree t)
    (hmem : ch ∈ t.data.chars) :
    computeCode ch t =
      some ⟨(codePath ch t).length % 256, bitsVal (codePath ch t) % 256⟩ := by
  unfold computeCode
  rw [computeCodeAux_path ch t 0 0]
  simp [endTree_isLeaf ch t hw hmem]

theorem codePath_incomparable :
    ∀ t : HTree, WfTree t → ∀ c₁ c₂ : Nat, c₁ ∈ t.data.chars →
      c₂ ∈ t.data.chars → c₁ ≠ c₂ → ¬ (codePath c₁ t <+: codePath c₂ t) := by
  intro t
  induction t with
  | leaf d =>
      intro hw c₁ c₂ h₁ h₂ hne
      obtain ⟨c, hc⟩ := hw
      simp only [HTree.data] at h₁ h₂
      rw [hc] at h₁ h₂
      exact absurd ((List.mem_singleton.mp h₁).trans
        (List.mem_singleton.mp h₂).symm) hne
  | node d l r ihl ihr =>
      intro hw c₁ c₂ h₁ h₂ hne
      obtain ⟨hiff, hdisj, _, hwl, hwr⟩ := hw
      by_cases m1 : c₁ ∈ l.data.chars
      · by_cases m2 : c₂ ∈ l.data.chars
        · simp only [codePath, if_pos m1, if_pos m2]
          intro hpre
          exact ihl hwl c₁ c₂ m1 m2 hne (List.cons_prefix_cons.mp hpre).2
        · have m2r : c₂ ∈ r.data.chars := by
            rcases (hiff c₂).mp h₂ with h | h
            · exact absurd h m2
            · exact h
          simp only [codePath, if_pos m1, if_neg m2, if_pos m2r]
          intro hpre
          exact Bool.noConfusion (List.cons_prefix_cons.mp hpre).1
      · have m1r : c₁ ∈ r.data.chars := by
          rcases (hiff c₁).mp h₁ with h | h
          · exact absurd h m1
          · exact h
        by_cases m2 : c₂ ∈ l.data.chars
        · simp only [codePath, if_neg m1, if_pos m1r, if_pos m2]
          intro hpre
          exact Bool.noConfusion (List.cons_prefix_cons.mp hpre).1
        · have m2r : c₂ ∈ r.data.chars := by
            rcases (hiff c₂).mp h₂ with h | h
            · exact absurd h m2
            · exact h
          simp only [codePath, if_neg m1, if_pos m1r, if_neg m2, if_pos m2r]
          intro hpre
          exact ihr hwr c₁ c₂ m1r m2r hne (List.cons_prefix_cons.mp hpre).2

theorem bitsVal_lt : ∀ p : List Bool, bitsVal p < 2 ^ p.length := by
  intro p
  induction p with
  | nil => simp [bitsVal]
  | cons b bs ih =>
      rw [bitsVal, List.length_cons, pow_succ]
      cases b <;> simp <;> omega

theorem mod_two_pow_succ_bit (a x n : Nat) (ha : a < 2) :
    (a + 2 * x) % 2 ^ (n + 1) = a + 2 * (x % 2 ^ n) := by
  have hx : x = 2 ^ n * (x / 2 ^ n) + x % 2 ^ n := (Nat.div_add_mod x (2 ^ n)).symm
  have hlt : x % 2 ^ n < 2 ^ n := Nat.mod_lt _ (Nat.pos_pow_of_pos n (by omega))
  calc (a + 2 * x) % 2 ^ (n + 1)
      = (a + 2 * (x % 2 ^ n) + 2 ^ (n + 1) * (x / 2 ^ n)) % 2 ^ (n + 1) := by
        rw [pow_succ]
        conv_lhs => rw [hx]
        ring_nf
    _ = (a + 2 * (x % 2 ^ n)) % 2 ^ (n + 1) := by
        rw [Nat.add_mul_mod_self_left]
    _ = a + 2 * (x % 2 ^ n) := by
        apply Nat.mod_eq_of_lt
        rw [pow_succ]
        omega

theorem bitsVal_mod_eq_iff :
    ∀ (p₁ p₂ : List Bool), p₁.length ≤ p₂.length →
      (bitsVal p₂ % 2 ^ p₁.length = bitsVal p₁ ↔ p₁ <+: p₂) := by
  intro p₁
  induction p₁ with
  | nil =>
      intro p₂ _
      simp [bitsVal, List.nil_prefix, Nat.mod_one]
  | cons b bs ih =>
      intro p₂ hlen
      cases p₂ with
      | nil => simp at hlen
      | cons c cs =>
          rw [List.length_cons, List.length_cons, Nat.succ_le_succ_iff] at hlen
          rw [List.cons_prefix_cons]
          rw [show bitsVal (c :: cs) = (if c then 1 else 0) + 2 * bitsVal cs from rfl]
          rw [List.length_cons,
            mod_two_pow_succ_bit _ _ _ (by cases c <;> simp)]
          rw [show bitsVal (b :: bs) = (if b then 1 else 0) + 2 * bitsVal bs from rfl]
          constructor
          · intro h
            have hc : (if c then 1 else 0 : Nat) = (if b then 1 else 0 : Nat) ∧
                bitsVal cs % 2 ^ bs.length = bitsVal bs := by
              have hb2 : (if b then 1 else 0 : Nat) < 2 := by cases b <;> simp
              have hc2 : (if c then 1 else 0 : Nat) < 2 := by cases c <;> simp
              omega
            refine ⟨?_, (ih cs hlen).mp hc.2⟩
            cases b <;> cases c <;> simp_all
          · intro h
            rw [h.1, (ih cs hlen).mpr h.2]

theorem bitsVal_inj {p₁ p₂ : List Bool} (hlen : p₁.length = p₂.length)
    (hval : bitsVal p₁ = bitsVal p₂) : p₁ = p₂ := by
  have h1 : bitsVal p₂ % 2 ^ p₁.length = bitsVal p₁ := by
    rw [hval, hlen, Nat.mod_eq_of_lt (bitsVal_lt p₂)]
  exact List.IsPrefix.eq_of_length
    ((bitsVal_mod_eq_iff p₁ p₂ (le_of_eq hlen)).mp h1) hlen

theorem buildDictionary_mem :
    ∀ (chars : List Nat) (t : HTree) (d : List (Nat × Code)),
      chars.mapM (fun ch => (computeCode ch t).map (fun c => (ch, c))) = some d →
      ∀ p ∈ d, p.1 ∈ chars ∧ computeCode p.1 t = some p.2 := by
  intro chars
  induction chars with
  | nil =>
      intro t d heq p hp
      rw [List.mapM_nil] at heq
      cases heq
      cases hp
  | cons a l ih =>
      intro t d heq p hp
      rw [List.mapM_cons] at heq
      cases hc : computeCode a t with
      | none => rw [hc] at heq; simp at heq
      | some c =>
          rw [hc] at heq
          cases hm : l.mapM (fun ch => (computeCode ch t).map (fun c => (ch, c))) with
          | none => rw [hm] at heq; simp at heq
          | some d2 =>
              rw [hm] at heq
              simp at heq
              rw [← heq] at hp
              rcases List.mem_cons.mp hp with h | h
              · rw [h]
                exact ⟨by simp, hc⟩
              · obtain ⟨hmem, hcode⟩ := ih t d2 hm p h
                exact ⟨List.mem_cons_of_mem _ hmem, hcode⟩

/-- C4, amended. For a dictionary built from a constructed coding
tree *all of whose assigned root-to-leaf paths have length at most 8*
(so the 8-bit `data` field is not truncated): no two distinct byte
values are mapped to the same `(length, data)` pair, and for any two
assigned codes of differing length, the shorter code's bit pattern (its
low `length` bits) is never a bit-prefix of the longer code's
pattern. -/
theorem buildDictionary_prefixFree (leaves : List HTree) (t : HTree)
    (d : List (Nat × Code))
    (hok : LeavesOk leaves)
    (heq : buildTreeFromLeaves leaves = some t)
    (hdepth : ∀ ch ∈ t.data.chars, (codePath ch t).length ≤ 8)
    (hd : buildDictionary t = some d) :
    (∀ p₁ ∈ d, ∀ p₂ ∈ d, p₁.1 ≠ p₂.1 → p₁.2 ≠ p₂.2) ∧
      (∀ p₁ ∈ d, ∀ p₂ ∈ d, p₁.2.length < p₂.2.length →
        p₂.2.data % 2 ^ p₁.2.length ≠ p₁.2.data) := by
  unfold buildTreeFromLeaves at heq
  have hperm := List.perm_insertionSort
    (fun a b : HTree => a.data.weight ≤ b.data.weight) leaves
  have hwf : WfTree t := by
    refine buildLoop_wf _ _ t heq ?_ ?_
    · intro x hx
      obtain ⟨c, w, hc⟩ := hok.1 x (hperm.mem_iff.mp hx)
      rw [hc]
      exact ⟨c, rfl⟩
    · exact (List.Perm.pairwise_iff (fun h => TDisj_symm h) hperm).mpr hok.2
  have hentry : ∀ p ∈ d, p.1 ∈ t.data.chars ∧
      p.2 = ⟨(codePath p.1 t).length, bitsVal (codePath p.1 t)⟩ := by
    intro p hp
    obtain ⟨hmem, hcode⟩ := buildDictionary_mem t.data.chars t d hd p hp
    refine ⟨hmem, ?_⟩
    rw [computeCode_eq hwf hmem] at hcode
    have hlen8 : (codePath p.1 t).length ≤ 8 := hdepth p.1 hmem
    have hlt : bitsVal (codePath p.1 t) < 256 := by
      have := bitsVal_lt (codePath p.1 t)
      have hpow : (2 : Nat) ^ (codePath p.1 t).length ≤ 2 ^ 8 :=
        Nat.pow_le_pow_right (by omega) hlen8
      omega
    rw [Nat.mod_eq_of_lt (by omega : (codePath p.1 t).length < 256),
      Nat.mod_eq_of_lt hlt] at hcode
    exact (Option.some.inj hcode).symm
  constructor
  · intro p₁ hp₁ p₂ hp₂ hne hcontra
    obtain ⟨hm₁, he₁⟩ := hentry p₁ hp₁
    obtain ⟨hm₂, he₂⟩ := hentry p₂ hp₂
    rw [he₁, he₂] at hcontra
    have hlen : (codePath p₁.1 t).length = (codePath p₂.1 t).length :=
      congrArg Code.length hcontra
    have hval : bitsVal (codePath p₁.1 t) = bitsVal (codePath p₂.1 t) :=
      congrArg Code.data hcontra
    have hpp : codePath p₁.1 t <+: codePath p₂.1 t := by
      rw [bitsVal_inj hlen hval]
    exact codePath_incomparable t hwf p₁.1 p₂.1 hm₁ hm₂ hne hpp
  · intro p₁ hp₁ p₂ hp₂ hlt hcontra
    obtain ⟨hm₁, he₁⟩ := hentry p₁ hp₁
    obtain ⟨hm₂, he₂⟩ := hentry p₂ hp₂
    have hne : p₁.1 ≠ p₂.1 := by
      intro hcc
      rw [he₁, he₂, hcc] at hlt
      exact lt_irrefl _ hlt
    rw [he₁, he₂] at hcontra hlt
    simp only at hcontra hlt
    exact codePath_incomparable t hwf p₁.1 p₂.1 hm₁ hm₂ hne
      ((bitsVal_mod_eq_iff _ _ (le_of_lt hlt)).mp hcontra)

/-- Witness for `buildDictionary_prefixFree`: two singleton leaves,
codes `⟨1, 0⟩` and `⟨1, 1⟩`. -/
theorem buildDictionary_prefixFree_witness :
    (∀ p₁ ∈ [((5 : Nat), (⟨1, 0⟩ : Code)), (6, ⟨1, 1⟩)],
        ∀ p₂ ∈ [((5 : Nat), (⟨1, 0⟩ : Code)), (6, ⟨1, 1⟩)],
          p₁.1 ≠ p₂.1 → p₁.2 ≠ p₂.2) ∧
      (∀ p₁ ∈ [((5 : Nat), (⟨1, 0⟩ : Code)), (6, ⟨1, 1⟩)],
        ∀ p₂ ∈ [((5 : Nat), (⟨1, 0⟩ : Code)), (6, ⟨1, 1⟩)],
          p₁.2.length < p₂.2.length →
            p₂.2.data % 2 ^ p₁.2.length ≠ p₁.2.data) :=
  buildDictionary_prefixFree [HTree.leaf ⟨[5], 1⟩, HTree.leaf ⟨[6], 2⟩]
    (HTree.node ⟨[5, 6], 3⟩ (HTree.leaf ⟨[5], 1⟩) (HTree.leaf ⟨[6], 2⟩))
    [(5, ⟨1, 0⟩), (6, ⟨1, 1⟩)]
    ⟨fun l hl => by
        rcases List.mem_cons.mp hl with h | h
        · exact ⟨5, 1, h⟩
        · exact ⟨6, 2, List.mem_singleton.mp h⟩,
      List.pairwise_cons.mpr
        ⟨fun b hb => by
            rw [List.mem_singleton.mp hb]
            intro z hz
            simp [HTree.data] at hz ⊢
            omega,
          List.pairwise_singleton _ _⟩⟩
    (by decide) (by decide) (by decide)

end Huffman
